import Mathlib

/-!
Verification of the execution core of a git-hook orchestration tool
(`pre_commit/xargs.py`, `pre_commit/output.py`, `pre_commit/editor.py`).

The Python source is embedded shallowly: pure functions become Lean
functions, the platform string encoding becomes an explicit length
function `encLen : String → Nat`, exceptions become `Except`, and the
lock/stream side effects of the output synchronizer become explicit
event traces.
-/

namespace PreCommit

/-- `_command_length(*cmd)` from `xargs.py`: the length of `' '.join(cmd)`
under the platform encoding (UTF-8 bytes on POSIX, UTF-16 code units on
Windows).  Both encodings are additive over concatenation and encode the
space separator as one unit, so the length of the join is the sum of the
per-argument encoded lengths plus one separator per gap. -/
def commandLength (encLen : String → Nat) : List String → Nat
  | [] => 0
  | [a] => encLen a
  | a :: b :: rest => encLen a + 1 + commandLength encLen (b :: rest)

/-- The POSIX branch of `_command_length`: `len(arg.encode('utf-8'))`. -/
def utf8Len (s : String) : Nat := s.utf8ByteSize

/-- `max_args = max(4, math.ceil(len(varargs) / target_concurrency))` from
`partition` in `xargs.py` (for `target_concurrency > 0`,
`math.ceil(n / t) = (n + t - 1) / t` in integer arithmetic). -/
def max_args (varargsLen targetConcurrency : Nat) : Nat :=
  max 4 ((varargsLen + targetConcurrency - 1) / targetConcurrency)

/-- The `while varargs:` loop of `partition` in `xargs.py`.  State: the
remaining `varargs` (already reversed back to original order: the Python
code reverses the list and pops from the end, processing arguments in
original order), the current partition tail `retCmd`, the running
`total_length`, and the accumulated result `ret`.  Python's
`varargs.append(arg)` after closing a partition re-processes the same
argument with an empty `ret_cmd` on the next iteration; that next
iteration is inlined here (its `len(ret_cmd) < max_args` test becomes
`0 < maxArgs` and a failing length test raises, since `ret_cmd` is
empty).  `ArgumentTooLongError(arg)` becomes `Except.error arg`. -/
def partitionLoop (encLen : String → Nat) (cmd : List String) (maxLen maxArgs : Nat) :
    List String → List String → Nat → List (List String) →
    Except String (List (List String))
  | [], retCmd, _total, ret => .ok (ret ++ [cmd ++ retCmd])
  | arg :: rest, retCmd, total, ret =>
    let argLength := encLen arg + 1
    if total + argLength ≤ maxLen ∧ retCmd.length < maxArgs then
      partitionLoop encLen cmd maxLen maxArgs rest (retCmd ++ [arg]) (total + argLength) ret
    else if retCmd = [] then
      .error arg
    else
      let total0 := commandLength encLen cmd + 1
      if total0 + argLength ≤ maxLen ∧ 0 < maxArgs then
        partitionLoop encLen cmd maxLen maxArgs rest [arg] (total0 + argLength)
          (ret ++ [cmd ++ retCmd])
      else
        .error arg

/-- `partition(cmd, varargs, target_concurrency, _max_length)` from
`xargs.py`.  The claims under verification always pass an explicit
positive `_max_length`, so the `_max_length or _get_platform_max_length()`
defaulting is outside the embedding. -/
def partition (encLen : String → Nat) (cmd varargs : List String)
    (targetConcurrency maxLen : Nat) : Except String (List (List String)) :=
  partitionLoop encLen cmd maxLen (max_args varargs.length targetConcurrency)
    varargs [] (commandLength encLen cmd + 1) []

/-- The argv handed to the subprocess by `run_cmd_partition` in `xargs.py`
for the partition `runCmd` (`cmd` is the fixed prefix captured from the
enclosing `xargs` call).  Buffered mode (`not stream_output`) calls
`cmd_fn(*run_cmd, ...)`; streaming mode calls
`stream_subprocess_output(cmd)`. -/
def run_cmd_partition_argv (streamOutput : Bool) (cmd runCmd : List String) :
    List String :=
  if streamOutput then cmd else runCmd

/-- The exit-code aggregation loop at the end of `xargs` in `xargs.py`:
`retcode = 0`, then for each partition result
`if abs(proc_retcode) > abs(retcode): retcode = proc_retcode`. -/
def aggregate_retcode (results : List Int) : Int :=
  results.foldl (fun retcode r => if retcode.natAbs < r.natAbs then r else retcode) 0

/-- Python `platform.system != 'Windows'` from `editor.py`
(`should_run_concurrently` and `should_clean_draft`): `platform.system`
is the *function object*, not its result, and comparing a function object
to a string with `!=` is `True` whatever `platform.system()` would
return.  The actual platform name is therefore ignored. -/
def platform_system_neq_windows (_systemName : String) : Bool := true

/-- `should_run_concurrently(hook_stage)` from `editor.py`.  The results
of the two probe calls `_is_editor_script_configured()` and
`_should_open_editor()` are passed in as booleans; `systemName` is what
`platform.system()` would return. -/
def should_run_concurrently (hookStage : String)
    (editorScriptConfigured shouldOpenEditor : Bool) (systemName : String) : Bool :=
  hookStage == "commit" && editorScriptConfigured && shouldOpenEditor &&
    platform_system_neq_windows systemName

/-- `should_clean_draft(hook_stage)` from `editor.py`, with the probe
results (`_is_editor_script_configured()`, `_should_open_editor()`,
`COMMIT_MESSAGE_DRAFT_PATH.exists()`) passed in as booleans. -/
def should_clean_draft (hookStage : String)
    (editorScriptConfigured shouldOpenEditor draftExists : Bool)
    (systemName : String) : Bool :=
  hookStage == "commit" && editorScriptConfigured && !shouldOpenEditor &&
    draftExists && platform_system_neq_windows systemName

/-- `_should_open_editor()` from `editor.py`.  `introspection` is the
outcome of `psutil.Process().parent().cmdline()` — `Except.error` when
the parent-process introspection raises.  That call sits *before* the
`try:` block, so its exception propagates (`Except.error` result).
Inside the `try:`, the allow-list parse is abstracted as
`parseSucceeds` (true iff `parser.parse_args(git_invocation)` completes
without `ParseFailed`); `except ParseFailed: return False` is the
`false` branch. -/
def _should_open_editor (parseSucceeds : List String → Bool)
    (introspection : Except String (List String)) : Except String Bool :=
  match introspection with
  | .error e => .error e
  | .ok git_invocation =>
    if git_invocation.take 2 = ["git", "commit"] then
      .ok (parseSucceeds git_invocation)
    else
      .ok false

/-- Python `str.splitlines()` restricted to `'\n'` line boundaries (the
draft file and templates in `editor.py` are plain `'\n'`-separated
text): split at each `'\n'`, never keeping the terminator, and do not
produce a final empty line for a trailing `'\n'`.  `acc` holds the
current line, reversed. -/
def splitlinesAux (acc : List Char) : List Char → List (List Char)
  | [] => if acc = [] then [] else [acc.reverse]
  | c :: rest =>
    if c = '\n' then acc.reverse :: splitlinesAux [] rest
    else splitlinesAux (c :: acc) rest

/-- `s.splitlines()` for `'\n'`-separated text. -/
def pythonSplitlines (s : String) : List String :=
  (splitlinesAux [] s.data).map List.asString

/-- Python `line.startswith('#')` for the one-character prefix `'#'`:
true iff the line's first character is `'#'`. -/
def startswith_hash (line : String) : Bool :=
  match line.data with
  | [] => false
  | c :: _ => c = '#'

/-- The draft-refresh branch of `_edit_commit_message` in `editor.py`
(the draft file exists): read the draft, keep only the lines that do not
start with `'#'`, join them with `'\n'`, and write that followed by the
new template. -/
def refresh_draft (commit_draft template : String) : String :=
  String.intercalate "\n"
    ((pythonSplitlines commit_draft).filter (fun line => ! startswith_hash line)) ++
    template

/-- One atomic observable action on the shared output stream: acquiring
or releasing the process-wide `stdout_lock`, writing a block of bytes to
the real stream, or flushing it. -/
inductive Ev
  | acquire
  | release
  | writeReal (s : String)
  | flush
deriving DecidableEq

/-- How a `with` scope (a `@contextlib.contextmanager` generator) is
exited: normal fall-through of the body, early explicit
`ExitStack.close()` (which runs the same no-exception `__exit__`), or an
exception raised inside the body (thrown into the generator at
`yield`). -/
inductive ScopeExit
  | normal
  | earlyClose
  | raised
deriving DecidableEq

/-- The actions `paused_stdout` in `output.py` performs on the real
output stream and `stdout_lock`, given the bytes `buf` accumulated in
the in-memory buffer during the scope.  On a no-exception exit (normal
or early `close()`), the generator resumes after `yield`: it acquires
`stdout_lock`, leaves the `redirect_stdout` block, writes the whole
buffer with `write_b(..., sys.stdout.buffer)` (one write + flush, with
an explicit stream so `write_b` itself takes no lock), and releases.
When an exception is thrown into the generator at `yield`, the code
after `yield` never runs: nothing is acquired and nothing is written. -/
def paused_stdout_events (buf : String) : ScopeExit → List Ev
  | .normal => [.acquire, .writeReal buf, .flush, .release]
  | .earlyClose => [.acquire, .writeReal buf, .flush, .release]
  | .raised => []

/-- The blocks that reach the real output stream in a
`paused_stdout` run. -/
def paused_stdout_real_writes (buf : String) (e : ScopeExit) : List String :=
  (paused_stdout_events buf e).filterMap fun ev =>
    match ev with
    | .writeReal s => some s
    | _ => none

/-- The action trace of `write_b(b)` in `output.py` when called with
`stream=None`: `with stdout_lock: stream = sys.stdout.buffer` acquires
and immediately releases the lock around the stream lookup only; the
`stream.write(b)` and `stream.flush()` that follow run *outside* the
`with` block. -/
def write_b_events (b : String) : List Ev :=
  [.acquire, .release, .writeReal b, .flush]

/-- The action trace of `write_line_b(s)` in `output.py` with
`stream=None` and no logfile: the lock is again held only around
`stream = sys.stdout.buffer`; the write of `s`, the newline write and the
flush all run outside it. -/
def write_line_b_events (s : String) : List Ev :=
  [.acquire, .release, .writeReal s, .writeReal "\n", .flush]

/-- The action trace of one streamed chunk write in `run_cmd_partition`
in `xargs.py`: `with stdout_lock: sys.stdout.buffer.write(chunk);
sys.stdout.buffer.flush()` — the whole write + flush inside the lock. -/
def stream_chunk_events (chunk : String) : List Ev :=
  [.acquire, .writeReal chunk, .flush, .release]

/-- Scans an event trace and checks that every `writeReal` and `flush`
happens while the lock is held; the boolean argument is whether the lock
is currently held. -/
def allWritesLocked : List Ev → Bool → Bool
  | [], _ => true
  | .acquire :: rest, _ => allWritesLocked rest true
  | .release :: rest, _ => allWritesLocked rest false
  | .writeReal _ :: rest, held => held && allWritesLocked rest held
  | .flush :: rest, held => held && allWritesLocked rest held

/-- `maxLen < commandLength cmd + 1 + (encLen a + 1)`: argument `a`
cannot be placed even into a fresh partition holding only the prefix, so
`partition` must raise `ArgumentTooLongError(a)` when it reaches `a`. -/
def tooLong (encLen : String → Nat) (cmd : List String) (maxLen : Nat)
    (a : String) : Bool :=
  decide (maxLen < commandLength encLen cmd + 1 + (encLen a + 1))

/-! ## Helper lemmas about `commandLength` and the partition loop -/

theorem commandLength_add_one (encLen : String → Nat) :
    ∀ l : List String, l ≠ [] →
      commandLength encLen l + 1 = (l.map fun a => encLen a + 1).sum
  | [], h => absurd rfl h
  | [a], _ => by simp [commandLength]
  | a :: b :: r, _ => by
    have ih := commandLength_add_one encLen (b :: r) (by simp)
    simp only [commandLength, List.map, List.sum_cons] at *
    omega

theorem commandLength_append (encLen : String → Nat) :
    ∀ cmd : List String, ∀ retCmd : List String, retCmd ≠ [] →
      commandLength encLen (cmd ++ retCmd) + 1 ≤
        commandLength encLen cmd + 1 + (retCmd.map fun a => encLen a + 1).sum
  | [], retCmd, h => by
    have h1 := commandLength_add_one encLen retCmd h
    rw [List.nil_append, show commandLength encLen ([] : List String) = 0 from rfl]
    omega
  | [a], retCmd, h => by
    match retCmd, h with
    | c :: r, _ =>
      have h1 := commandLength_add_one encLen (c :: r) (by simp)
      have e1 : commandLength encLen ([a] ++ c :: r)
          = encLen a + 1 + commandLength encLen (c :: r) := rfl
      have e2 : commandLength encLen [a] = encLen a := rfl
      omega
  | a :: b :: cs, retCmd, h => by
    have ih := commandLength_append encLen (b :: cs) retCmd h
    have e1 : commandLength encLen ((a :: b :: cs) ++ retCmd)
        = encLen a + 1 + commandLength encLen ((b :: cs) ++ retCmd) := rfl
    have e2 : commandLength encLen (a :: b :: cs)
        = encLen a + 1 + commandLength encLen (b :: cs) := rfl
    omega

/-- Every partition emitted by a run of the loop that ends in `.ok` has
serialized length at most `maxLen`, provided the loop state is
consistent (`total` is the tracked length of `cmd ++ retCmd` plus one,
within budget whenever `retCmd` is non-empty) and the run still has an
argument to place into the final partition. -/
theorem partitionLoop_ok_length (encLen : String → Nat) (cmd : List String)
    (maxLen maxArgs : Nat) :
    ∀ (varargs retCmd : List String) (total : Nat) (ret parts : List (List String)),
      total = commandLength encLen cmd + 1 + (retCmd.map fun a => encLen a + 1).sum →
      (retCmd ≠ [] → total ≤ maxLen) →
      (varargs ≠ [] ∨ retCmd ≠ []) →
      (∀ p ∈ ret, commandLength encLen p ≤ maxLen) →
      partitionLoop encLen cmd maxLen maxArgs varargs retCmd total ret = .ok parts →
      ∀ p ∈ parts, commandLength encLen p ≤ maxLen := by
  intro varargs
  induction varargs with
  | nil =>
    intro retCmd total ret parts htot hle hne hret hloop p hp
    simp only [partitionLoop, Except.ok.injEq] at hloop
    subst hloop
    rcases List.mem_append.1 hp with h | h
    · exact hret p h
    · have hretCmd : retCmd ≠ [] := by
        rcases hne with h' | h'
        · exact absurd rfl h'
        · exact h'
      have hlen := commandLength_append encLen cmd retCmd hretCmd
      have := hle hretCmd
      simp only [List.mem_singleton] at h
      subst h
      omega
  | cons arg rest ih =>
    intro retCmd total ret parts htot hle hne hret hloop p hp
    simp only [partitionLoop] at hloop
    split at hloop
    · rename_i hcond
      refine ih (retCmd ++ [arg]) _ ret parts ?_ ?_ ?_ hret hloop p hp
      · simp only [List.map_append, List.sum_append, List.map_cons, List.map_nil,
          List.sum_cons, List.sum_nil]
        omega
      · intro _
        exact hcond.1
      · right; simp
    · split at hloop
      · exact absurd hloop (by simp)
      · rename_i hcond hretCmd
        split at hloop
        · rename_i hcond2
          refine ih [arg] _ (ret ++ [cmd ++ retCmd]) parts ?_ ?_ ?_ ?_ hloop p hp
          · simp
          · intro _
            exact hcond2.1
          · right; simp
          · intro q hq
            rcases List.mem_append.1 hq with h | h
            · exact hret q h
            · simp only [List.mem_singleton] at h
              subst h
              have hlen := commandLength_append encLen cmd retCmd hretCmd
              have := hle hretCmd
              omega
        · exact absurd hloop (by simp)

/-- Every partition emitted by an `.ok` run of the loop carries at most
`maxArgs` variable arguments beyond the fixed `cmd` part. -/
theorem partitionLoop_ok_count (encLen : String → Nat) (cmd : List String)
    (maxLen maxArgs : Nat) :
    ∀ (varargs retCmd : List String) (total : Nat) (ret parts : List (List String)),
      retCmd.length ≤ maxArgs →
      0 < maxArgs →
      (∀ p ∈ ret, (p.drop cmd.length).length ≤ maxArgs) →
      partitionLoop encLen cmd maxLen maxArgs varargs retCmd total ret = .ok parts →
      ∀ p ∈ parts, (p.drop cmd.length).length ≤ maxArgs := by
  intro varargs
  induction varargs with
  | nil =>
    intro retCmd total ret parts hcount _ hret hloop p hp
    simp only [partitionLoop, Except.ok.injEq] at hloop
    subst hloop
    rcases List.mem_append.1 hp with h | h
    · exact hret p h
    · simp only [List.mem_singleton] at h
      subst h
      simpa [List.drop_left] using hcount
  | cons arg rest ih =>
    intro retCmd total ret parts hcount hpos hret hloop p hp
    simp only [partitionLoop] at hloop
    split at hloop
    · rename_i hcond
      refine ih (retCmd ++ [arg]) _ ret parts ?_ hpos hret hloop p hp
      have := hcond.2
      simp only [List.length_append, List.length_cons, List.length_nil]
      omega
    · split at hloop
      · exact absurd hloop (by simp)
      · split at hloop
        · refine ih [arg] _ (ret ++ [cmd ++ retCmd]) parts (by simpa using hpos)
            hpos ?_ hloop p hp
          intro q hq
          rcases List.mem_append.1 hq with h | h
          · exact hret q h
          · simp only [List.mem_singleton] at h
            subst h
            simpa [List.drop_left] using hcount
        · exact absurd hloop (by simp)

/-- When every single argument fits next to the bare prefix, the loop
never raises, and the variable tails of the partitions it appends to
`ret` concatenate to `retCmd ++ varargs`. -/
theorem partitionLoop_ok_join (encLen : String → Nat) (cmd : List String)
    (maxLen maxArgs : Nat) :
    ∀ (varargs retCmd : List String) (total : Nat) (ret : List (List String)),
      (∀ a ∈ varargs, commandLength encLen cmd + 1 + (encLen a + 1) ≤ maxLen) →
      0 < maxArgs →
      (retCmd = [] → total = commandLength encLen cmd + 1) →
      ∃ parts, partitionLoop encLen cmd maxLen maxArgs varargs retCmd total ret
          = .ok (ret ++ parts) ∧
        (parts.map fun p => p.drop cmd.length).flatten = retCmd ++ varargs := by
  intro varargs
  induction varargs with
  | nil =>
    intro retCmd total ret _ _ _
    exact ⟨[cmd ++ retCmd], by simp [partitionLoop], by simp [List.drop_left]⟩
  | cons arg rest ih =>
    intro retCmd total ret hfit hpos h0
    by_cases hcond : total + (encLen arg + 1) ≤ maxLen ∧ retCmd.length < maxArgs
    · obtain ⟨parts, heq, hjoin⟩ :=
        ih (retCmd ++ [arg]) (total + (encLen arg + 1)) ret
          (fun a ha => hfit a (List.mem_cons_of_mem _ ha)) hpos (by simp)
      refine ⟨parts, ?_, ?_⟩
      · simp only [partitionLoop, if_pos hcond]
        exact heq
      · rw [hjoin]
        simp
    · by_cases hretCmd : retCmd = []
      · exfalso
        apply hcond
        constructor
        · have := hfit arg (List.mem_cons_self _ _)
          rw [h0 hretCmd]
          omega
        · subst hretCmd
          simpa using hpos
      · have hinner : commandLength encLen cmd + 1 + (encLen arg + 1) ≤ maxLen ∧
            0 < maxArgs :=
          ⟨hfit arg (List.mem_cons_self _ _), hpos⟩
        obtain ⟨parts, heq, hjoin⟩ :=
          ih [arg] (commandLength encLen cmd + 1 + (encLen arg + 1))
            (ret ++ [cmd ++ retCmd])
            (fun a ha => hfit a (List.mem_cons_of_mem _ ha)) hpos (by simp)
        refine ⟨[cmd ++ retCmd] ++ parts, ?_, ?_⟩
        · simp only [partitionLoop, if_neg hcond, if_neg hretCmd, if_pos hinner]
          rw [heq, List.append_assoc]
        · simp [List.drop_left, hjoin]

/-- If some argument is too long even for a fresh partition, the loop
raises on the first such argument. -/
theorem partitionLoop_error (encLen : String → Nat) (cmd : List String)
    (maxLen maxArgs : Nat) :
    ∀ (varargs retCmd : List String) (total : Nat) (ret : List (List String))
      (b : String),
      0 < maxArgs →
      (retCmd = [] → total = commandLength encLen cmd + 1) →
      commandLength encLen cmd + 1 ≤ total →
      List.find? (tooLong encLen cmd maxLen) varargs = some b →
      partitionLoop encLen cmd maxLen maxArgs varargs retCmd total ret = .error b := by
  intro varargs
  induction varargs with
  | nil =>
    intro retCmd total ret b _ _ _ hfind
    simp [List.find?] at hfind
  | cons arg rest ih =>
    intro retCmd total ret b hpos h0 hge hfind
    by_cases hbad : tooLong encLen cmd maxLen arg = true
    · rw [List.find?_cons_of_pos _ hbad, Option.some.injEq] at hfind
      subst hfind
      have hlt : maxLen < commandLength encLen cmd + 1 + (encLen arg + 1) := by
        simpa [tooLong] using hbad
      have hcond : ¬(total + (encLen arg + 1) ≤ maxLen ∧ retCmd.length < maxArgs) := by
        intro h
        omega
      simp only [partitionLoop, if_neg hcond]
      by_cases hretCmd : retCmd = []
      · rw [if_pos hretCmd]
      · rw [if_neg hretCmd,
          if_neg (show ¬(commandLength encLen cmd + 1 + (encLen arg + 1) ≤ maxLen ∧
            0 < maxArgs) from fun h => by omega)]
    · rw [List.find?_cons_of_neg _ hbad] at hfind
      have hok : commandLength encLen cmd + 1 + (encLen arg + 1) ≤ maxLen := by
        simp only [tooLong, decide_eq_true_eq] at hbad
        omega
      by_cases hcond : total + (encLen arg + 1) ≤ maxLen ∧ retCmd.length < maxArgs
      · simp only [partitionLoop, if_pos hcond]
        exact ih (retCmd ++ [arg]) _ ret b hpos (by simp) (by omega) hfind
      · by_cases hretCmd : retCmd = []
        · exfalso
          apply hcond
          refine ⟨?_, ?_⟩
          · rw [h0 hretCmd]; omega
          · subst hretCmd; simpa using hpos
        · simp only [partitionLoop, if_neg hcond, if_neg hretCmd,
            if_pos (show commandLength encLen cmd + 1 + (encLen arg + 1) ≤ maxLen ∧
              0 < maxArgs from ⟨hok, hpos⟩)]
          exact ih [arg] _ (ret ++ [cmd ++ retCmd]) b hpos
            (by simp) (by omega) hfind

theorem max_args_pos (n t : Nat) : 0 < max_args n t :=
  Nat.lt_of_lt_of_le (by omega) (Nat.le_max_left 4 _)

/-- Invariant of the exit-code fold: starting from `acc`, the fold either
keeps `acc` (and then nothing in the list beats it in absolute value) or
lands on the first list element that strictly beats `acc` and everything
before it, and that nothing in the list strictly beats. -/
theorem aggregate_foldl_inv :
    ∀ (l : List Int) (acc : Int),
      (List.foldl (fun retcode r => if retcode.natAbs < r.natAbs then r else retcode)
          acc l = acc ∧ ∀ y ∈ l, y.natAbs ≤ acc.natAbs) ∨
      (∃ pre x post, l = pre ++ x :: post ∧
        List.foldl (fun retcode r => if retcode.natAbs < r.natAbs then r else retcode)
          acc l = x ∧
        acc.natAbs < x.natAbs ∧ (∀ y ∈ pre, y.natAbs < x.natAbs) ∧
        (∀ y ∈ l, y.natAbs ≤ x.natAbs)) := by
  intro l
  induction l with
  | nil => intro acc; left; exact ⟨rfl, by simp⟩
  | cons a t ih =>
    intro acc
    by_cases hlt : acc.natAbs < a.natAbs
    · rcases ih a with ⟨heq, hall⟩ | ⟨pre, x, post, hsplit, heq, hstep, hpre, hall⟩
      · right
        refine ⟨[], a, t, by simp, ?_, hlt, by simp, ?_⟩
        · simpa [List.foldl_cons, if_pos hlt] using heq
        · intro y hy
          rcases List.mem_cons.1 hy with h | h
          · subst h; exact le_refl _
          · exact hall y h
      · subst hsplit
        right
        refine ⟨a :: pre, x, post, rfl, ?_, ?_, ?_, ?_⟩
        · simpa [List.foldl_cons, if_pos hlt] using heq
        · omega
        · intro y hy
          rcases List.mem_cons.1 hy with h | h
          · subst h; exact hstep
          · exact hpre y h
        · intro y hy
          rcases List.mem_cons.1 hy with h | h
          · subst h; omega
          · exact hall y h
    · rcases ih acc with ⟨heq, hall⟩ | ⟨pre, x, post, hsplit, heq, hstep, hpre, hall⟩
      · left
        refine ⟨?_, ?_⟩
        · simpa [List.foldl_cons, if_neg hlt] using heq
        · intro y hy
          rcases List.mem_cons.1 hy with h | h
          · subst h; omega
          · exact hall y h
      · subst hsplit
        right
        refine ⟨a :: pre, x, post, rfl, ?_, hstep, ?_, ?_⟩
        · simpa [List.foldl_cons, if_neg hlt] using heq
        · intro y hy
          rcases List.mem_cons.1 hy with h | h
          · subst h; omega
          · exact hpre y h
        · intro y hy
          rcases List.mem_cons.1 hy with h | h
          · subst h; omega
          · exact hall y h

/-! ## Claim theorems -/

/-- C1: the claim says that with `stream_output` set each worker's
subprocess is started with the full partition command, the same command
as in buffered mode.  The code passes the fixed prefix `cmd` — not the
partition `run_cmd` — to `stream_subprocess_output`, so for
`xargs(("echo",), ("a",), stream_output=True)` the streamed subprocess
runs `("echo",)` while buffered mode runs the partition
`("echo", "a")`. -/
theorem c1_stream_mode_drops_partition_args :
    partition utf8Len ["echo"] ["a"] 1 1000 = .ok [["echo", "a"]] ∧
    run_cmd_partition_argv false ["echo"] ["echo", "a"] = ["echo", "a"] ∧
    run_cmd_partition_argv true ["echo"] ["echo", "a"] = ["echo"] ∧
    run_cmd_partition_argv true ["echo"] ["echo", "a"] ≠ ["echo", "a"] := by
  refine ⟨rfl, rfl, rfl, ?_⟩
  decide

/-- C2: for every non-empty `varargs` and every `maxLen` large enough to
hold the prefix plus each single argument (with the one-separator
accounting the algorithm uses), `partition` succeeds and concatenating
the variable-argument tails of its partitions, in order, reproduces
`varargs` exactly. -/
theorem c2_partition_exhaustive_order_preserving
    (encLen : String → Nat) (cmd varargs : List String) (tc maxLen : Nat)
    (_hne : varargs ≠ [])
    (hfit : ∀ a ∈ varargs, commandLength encLen cmd + 1 + (encLen a + 1) ≤ maxLen) :
    ∃ parts, partition encLen cmd varargs tc maxLen = .ok parts ∧
      (parts.map fun p => p.drop cmd.length).flatten = varargs := by
  obtain ⟨parts, heq, hjoin⟩ := partitionLoop_ok_join encLen cmd maxLen
    (max_args varargs.length tc) varargs [] (commandLength encLen cmd + 1) []
    hfit (max_args_pos _ _) (fun _ => rfl)
  exact ⟨parts, by simpa [partition] using heq, by simpa using hjoin⟩

/-- Witness for C2 at
`partition(["echo"], ["a","b","c","d","e"], 2, 1000)`. -/
theorem c2_witness :
    ((["a", "b", "c", "d", "e"] : List String) ≠ [] ∧
      ∀ a ∈ (["a", "b", "c", "d", "e"] : List String),
        commandLength utf8Len ["echo"] + 1 + (utf8Len a + 1) ≤ 1000) ∧
    ∃ parts, partition utf8Len ["echo"] ["a", "b", "c", "d", "e"] 2 1000 = .ok parts ∧
      (parts.map fun p => p.drop (["echo"] : List String).length).flatten =
        ["a", "b", "c", "d", "e"] :=
  ⟨⟨by decide, by decide⟩,
    c2_partition_exhaustive_order_preserving utf8Len ["echo"] ["a", "b", "c", "d", "e"]
      2 1000 (by decide) (by decide)⟩

/-- C3 counterexample: the claim as stated quantifies over *every* call
to `partition`, but for an empty `varargs` the code returns the bare
prefix as the sole partition without ever checking its length: with a
prefix of serialized length 3 and `max_length = 1`, the returned
partition exceeds `max_length`. -/
theorem c3_counterexample :
    partition utf8Len ["abc"] [] 1 1 = .ok [["abc"]] ∧
    ¬ commandLength utf8Len ["abc"] ≤ 1 :=
  ⟨rfl, by decide⟩

/-- C3 amended: for every call with non-empty `varargs`, every returned
partition's serialized length is at most `maxLen`; and whenever some
argument together with the bare prefix overflows `maxLen` (under the
algorithm's one-separator accounting), the call fails with the
argument-too-long error naming the first such argument, returning no
partial result. -/
theorem c3_amended (encLen : String → Nat) (cmd varargs : List String)
    (tc maxLen : Nat) :
    (varargs ≠ [] → ∀ parts, partition encLen cmd varargs tc maxLen = .ok parts →
      ∀ p ∈ parts, commandLength encLen p ≤ maxLen) ∧
    (∀ b, List.find? (tooLong encLen cmd maxLen) varargs = some b →
      partition encLen cmd varargs tc maxLen = .error b) := by
  constructor
  · intro hne parts hok
    exact partitionLoop_ok_length encLen cmd maxLen _ varargs [] _ [] parts
      (by simp) (fun h => absurd rfl h) (Or.inl hne) (by simp) hok
  · intro b hfind
    exact partitionLoop_error encLen cmd maxLen _ varargs [] _ [] b
      (max_args_pos _ _) (fun _ => rfl) (le_refl _) hfind

/-- Witness for C3 at a fitting call and at an overflowing call. -/
theorem c3_witness :
    ((["a"] : List String) ≠ [] ∧
      ∀ p ∈ [["echo", "a"]], commandLength utf8Len p ≤ 100) ∧
    (List.find? (tooLong utf8Len ["echo"] 5) ["aaaaaaa"] = some "aaaaaaa" ∧
      partition utf8Len ["echo"] ["aaaaaaa"] 1 5 = .error "aaaaaaa") := by
  refine ⟨⟨by decide, ?_⟩, by decide, ?_⟩
  · exact (c3_amended utf8Len ["echo"] ["a"] 1 100).1 (by decide) [["echo", "a"]] rfl
  · exact (c3_amended utf8Len ["echo"] ["aaaaaaa"] 1 5).2 "aaaaaaa" (by decide)

/-- C4: the aggregate exit code of the dispatcher is a result of maximal
absolute value, and it is the first such result in arrival order (every
earlier result has strictly smaller absolute value); `{0, -1, 2, 0}`
aggregates to `2` and `{0, -3, 1}` to `-3`. -/
theorem c4_aggregate_exit_code :
    (∀ results : List Int, results ≠ [] →
      ∃ pre x post, results = pre ++ x :: post ∧
        aggregate_retcode results = x ∧
        (∀ y ∈ pre, y.natAbs < x.natAbs) ∧
        (∀ y ∈ results, y.natAbs ≤ x.natAbs)) ∧
    aggregate_retcode [0, -1, 2, 0] = 2 ∧
    aggregate_retcode [0, -3, 1] = -3 := by
  refine ⟨?_, by decide, by decide⟩
  intro results hne
  rcases aggregate_foldl_inv results 0 with ⟨heq, hall⟩ |
    ⟨pre, x, post, hsplit, heq, _, hpre, hall⟩
  · match results, hne, heq, hall with
    | r :: rest, _, heq, hall =>
      have hr : r.natAbs = 0 := Nat.le_zero.mp (by simpa using hall r (by simp))
      refine ⟨[], r, rest, by simp, ?_, by simp, ?_⟩
      · have : aggregate_retcode (r :: rest) = 0 := by
          simpa [aggregate_retcode] using heq
        rw [this]
        omega
      · intro y hy
        have := hall y hy
        omega
  · exact ⟨pre, x, post, hsplit, by simpa [aggregate_retcode] using heq, hpre, hall⟩

/-- Witness for C4 at `[0, -1, 2, 0]`. -/
theorem c4_witness :
    (([0, -1, 2, 0] : List Int) ≠ []) ∧
    ∃ pre x post, ([0, -1, 2, 0] : List Int) = pre ++ x :: post ∧
      aggregate_retcode [0, -1, 2, 0] = x ∧
      (∀ y ∈ pre, y.natAbs < x.natAbs) ∧
      (∀ y ∈ ([0, -1, 2, 0] : List Int), y.natAbs ≤ x.natAbs) :=
  ⟨by decide, c4_aggregate_exit_code.1 [0, -1, 2, 0] (by decide)⟩

/-- C5: *every* partition returned by `partition` (last one included)
carries at most `max_args = max(4, ceil(len(varargs)/target_concurrency))`
variable arguments — which implies the claim's "no partition except
possibly the sole/last one" — and the end-to-end example
`partition(["echo"], ["a","b","c","d","e"], 2, 1000)` yields exactly
`("echo","a","b","c","d")` and `("echo","e")`. -/
theorem c5_max_args_bound :
    (∀ (encLen : String → Nat) (cmd varargs : List String) (tc maxLen : Nat)
        (parts : List (List String)),
      partition encLen cmd varargs tc maxLen = .ok parts →
      ∀ p ∈ parts, (p.drop cmd.length).length ≤ max_args varargs.length tc) ∧
    partition utf8Len ["echo"] ["a", "b", "c", "d", "e"] 2 1000 =
      .ok [["echo", "a", "b", "c", "d"], ["echo", "e"]] := by
  refine ⟨?_, rfl⟩
  intro encLen cmd varargs tc maxLen parts hok
  exact partitionLoop_ok_count encLen cmd maxLen _ varargs [] _ [] parts
    (by simp) (max_args_pos _ _) (by simp) hok

/-- Witness for C5: the bound instantiated at the end-to-end example. -/
theorem c5_witness :
    ∀ p ∈ [["echo", "a", "b", "c", "d"], ["echo", "e"]],
      (p.drop (["echo"] : List String).length).length ≤ max_args 5 2 :=
  c5_max_args_bound.1 utf8Len ["echo"] ["a", "b", "c", "d", "e"] 2 1000 _
    c5_max_args_bound.2

/-- C6: the claim says that on Windows both eligibility decisions are
false regardless of everything else.  But the code's platform guard
`platform.system != 'Windows'` compares the un-called function object
`platform.system` to a string, which is always true, so on a Windows
system with a commit stage, a configured editor script and an allowed
`git commit` parent, `should_run_concurrently` returns `True` (and
`should_clean_draft` returns `True` with a stale draft present). -/
theorem c6_windows_not_excluded :
    should_run_concurrently "commit" true true "Windows" = true ∧
    should_clean_draft "commit" true false true "Windows" = true :=
  ⟨rfl, rfl⟩

/-- C7 counterexample: the claim says the buffer is flushed to the real
stream on *every* exit of the paused-output scope, including an
exception raised inside the scope.  When the exception is thrown into
the `paused_stdout` generator at `yield`, the flush code after `yield`
never runs: nothing reaches the real stream and the buffered bytes are
lost. -/
theorem c7_counterexample :
    paused_stdout_real_writes "hook output" ScopeExit.raised = [] ∧
    paused_stdout_real_writes "hook output" ScopeExit.raised ≠ ["hook output"] := by
  refine ⟨rfl, ?_⟩
  decide

/-- C7 amended: on normal completion and on early explicit close the
whole buffer is written to the real stream as one atomic block with the
global lock held across the write and flush; on an exception raised
inside the scope the buffered contents are discarded (nothing is
written). -/
theorem c7_amended (buf : String) :
    paused_stdout_real_writes buf ScopeExit.normal = [buf] ∧
    paused_stdout_real_writes buf ScopeExit.earlyClose = [buf] ∧
    allWritesLocked (paused_stdout_events buf ScopeExit.normal) false = true ∧
    allWritesLocked (paused_stdout_events buf ScopeExit.earlyClose) false = true ∧
    paused_stdout_real_writes buf ScopeExit.raised = [] :=
  ⟨rfl, rfl, rfl, rfl, rfl⟩

/-- C8: the claim says every write path holds the process-wide lock for
the entire write+flush.  In `write_b` and `write_line_b` the
`with stdout_lock:` block covers only the `stream = sys.stdout.buffer`
lookup; the write and flush run after the lock is released, so bytes
reach the real stream while the lock is not held.  Only the streaming
chunk write in `run_cmd_partition` keeps the lock across write+flush. -/
theorem c8_write_outside_lock :
    allWritesLocked (write_b_events "A") false = false ∧
    allWritesLocked (write_line_b_events "line") false = false ∧
    allWritesLocked (stream_chunk_events "chunk") false = true :=
  ⟨rfl, rfl, rfl⟩

/-- C9 counterexample: the claim says any error while introspecting the
parent process yields a `false` decision and no exception.  The
`psutil.Process().parent().cmdline()` call sits before the `try:` block
of `_should_open_editor`, so an introspection error propagates to the
caller instead of producing `.ok false`. -/
theorem c9_counterexample :
    _should_open_editor (fun _ => true) (.error "NoSuchProcess") =
      .error "NoSuchProcess" ∧
    _should_open_editor (fun _ => true) (.error "NoSuchProcess") ≠ .ok false :=
  ⟨rfl, fun h => Except.noConfusion h⟩

/-- C9 amended: whenever the parent command line is obtained, the
decision is a boolean and never an exception — in particular a parent
whose first two tokens are not `git commit`, or an allow-list parse
failure (`ParseFailed` is caught), decides `false` — but an error raised
by the parent-process introspection itself propagates to the caller. -/
theorem c9_amended (parseSucceeds : List String → Bool) (gi : List String)
    (e : String) :
    (∃ b : Bool, _should_open_editor parseSucceeds (.ok gi) = .ok b) ∧
    (gi.take 2 ≠ ["git", "commit"] →
      _should_open_editor parseSucceeds (.ok gi) = .ok false) ∧
    _should_open_editor parseSucceeds (.error e) = .error e := by
  refine ⟨?_, ?_, rfl⟩
  · by_cases h : gi.take 2 = ["git", "commit"]
    · exact ⟨parseSucceeds gi, by simp [_should_open_editor, h]⟩
    · exact ⟨false, by simp [_should_open_editor, h]⟩
  · intro h
    simp [_should_open_editor, h]

/-- Witness for C9 at the parent command line `["git", "status"]`. -/
theorem c9_witness :
    ((["git", "status"] : List String).take 2 ≠ ["git", "commit"]) ∧
    _should_open_editor (fun _ => true) (.ok ["git", "status"]) = .ok false :=
  ⟨by decide, (c9_amended (fun _ => true) ["git", "status"] "e").2.1 (by decide)⟩

/-- C10: refreshing an existing draft strips every line beginning with
`'#'` and appends the new template after the preserved non-comment
lines; in particular the draft `"fix bug\n# old status"` (with or
without a trailing newline) becomes `"fix bug"` followed by the new
template. -/
theorem c10_draft_refresh (template : String) :
    refresh_draft "fix bug\n# old status" template = "fix bug" ++ template ∧
    refresh_draft "fix bug\n# old status\n" template = "fix bug" ++ template ∧
    (∀ draft, refresh_draft draft template =
      String.intercalate "\n"
        ((pythonSplitlines draft).filter fun line => ! startswith_hash line) ++
        template) ∧
    (∀ draft line,
      line ∈ (pythonSplitlines draft).filter (fun l => ! startswith_hash l) →
      startswith_hash line = false) := by
  refine ⟨rfl, rfl, fun _ => rfl, ?_⟩
  intro draft line h
  simpa using (List.mem_filter.mp h).2

end PreCommit
